import Mathlib

set_option linter.unusedVariables false

/-!
Verification of the splay-tree chat-history index (`src/splayTree.c`).

The C program maintains a splay tree of chat sessions keyed by `chat_id`
(a C string), with a `title` and a `timestamp` per node, plus an in-order
collection routine capped at `MAX_CHATS`, a timestamp comparator used for
the recency listing, and a JSON escape/unescape pair used by persistence.

Shallow embedding conventions:
* C strings are modelled as `String` (a structure over `List Char`);
  `strcmp` is modelled char-by-char on the underlying lists by `strcmp`
  below, exactly mirroring its byte-lexicographic contract.
* `strncpy(dst, src, n)` into a zeroed buffer stores the first `n`
  characters of `src`; this is modelled by `strTake n`.
* The pointer structure (left/right/parent) is modelled by the inductive
  tree `CTree`; the parent back-pointers of the C code are represented by
  the zipper context `Ctx`, which records, for the node currently in
  focus, the chain of ancestors together with the side on which the focus
  hangs and the sibling subtree.  The C bottom-up `splay` loop, which
  climbs parent pointers applying zig / zig-zig / zig-zag rotation pairs,
  becomes `splayLoop`, which consumes the context from the inside out;
  each equation is the composite of the one or two `rotate_left` /
  `rotate_right` calls of the corresponding branch of `splay`.
* `int size` is modelled as `Int`; timestamps (`long`) as `Int`.
-/

namespace SplayC

/-- Byte-wise lexicographic comparison, the model of C `strcmp`:
the first position where the strings differ decides; a proper prefix is
smaller (the terminating NUL of the shorter string compares below any
character). -/
def strcmp : List Char → List Char → Ordering
  | [], [] => .eq
  | [], _ :: _ => .lt
  | _ :: _, [] => .gt
  | a :: as, b :: bs =>
    if a < b then .lt else if b < a then .gt else strcmp as bs

/-- Comparison of two keys as the C code performs it:
`strcmp` on the underlying character lists. -/
def scmp (a b : String) : Ordering := strcmp a.data b.data

/-- Strict key order induced by `strcmp` (the "lexicographic order" of the
specification). -/
def KLt (a b : String) : Prop := scmp a b = Ordering.lt

instance (a b : String) : Decidable (KLt a b) := by
  unfold KLt; infer_instance

/-- Model of `strncpy(dst, src, n)` into a zero-initialised buffer of
size `n + 1`: the stored C string is the first `n` characters of `src`. -/
def strTake (n : Nat) (s : String) : String := ⟨s.data.take n⟩

/-- MAX_ID_LEN of the C source. -/
def MAX_ID_LEN : Nat := 64

/-- MAX_TITLE_LEN of the C source. -/
def MAX_TITLE_LEN : Nat := 256

/-- MAX_CHATS of the C source. -/
def MAX_CHATS : Nat := 100

/-- The data of one `ChatNode`: `(chat_id, title, timestamp)`. -/
abbrev Entry : Type := String × String × Int

/-- The pointer structure reachable from a `ChatNode*`: either NULL or a
node with its `chat_id`, `title`, `timestamp` and two child pointers. -/
inductive CTree where
  | nil : CTree
  | node (chat_id title : String) (timestamp : Int) (left right : CTree) : CTree
  deriving DecidableEq

/-- The `SplayTree` struct: `root` pointer and `size` counter. -/
structure SplayTree where
  root : CTree
  size : Int
  deriving DecidableEq

/-- The tree returned by `create_splay_tree` (calloc: NULL root, size 0). -/
def emptyTree : SplayTree := { root := CTree.nil, size := 0 }

/-- In-order sequence of the entries of a tree (left, self, right). -/
def inorder : CTree → List Entry
  | .nil => []
  | .node k ti ts l r => inorder l ++ (k, ti, ts) :: inorder r

/-- In-order sequence of the keys of a tree. -/
def keys (t : CTree) : List String := (inorder t).map Prod.fst

/-- Key held by the root node, if any. -/
def rootKey : CTree → Option String
  | .nil => none
  | .node k _ _ _ _ => some k

/-- Entry held by the root node, if any. -/
def rootEntry : CTree → Option Entry
  | .nil => none
  | .node k ti ts _ _ => some (k, ti, ts)

/-- Zipper context: the chain of ancestors of the node in focus, from the
innermost ancestor outwards.  `leftOf k ti ts sib up` means the focus is
the `left` child of a node holding `(k, ti, ts)` whose `right` subtree is
`sib` (so `sib` is the focus's sibling), and `up` is that node's own
context.  This is the functional rendering of the `parent` pointers of
the C code. -/
inductive Ctx where
  | root : Ctx
  | leftOf (k ti : String) (ts : Int) (sib : CTree) (up : Ctx) : Ctx
  | rightOf (k ti : String) (ts : Int) (sib : CTree) (up : Ctx) : Ctx

/-- Rebuild the whole tree from a context and the subtree in focus. -/
def plug : Ctx → CTree → CTree
  | .root, t => t
  | .leftOf k ti ts sib up, t => plug up (.node k ti ts t sib)
  | .rightOf k ti ts sib up, t => plug up (.node k ti ts sib t)

/-- The `splay` loop of the C code.  The focus node holds `(k, ti, ts)`
with children `l`, `r`; `ctx` is its ancestor chain.  Each equation is
the result of the rotations performed by the corresponding branch of
`splay`:
* parent is root, focus is left child: `rotate_right(parent)` (zig);
* parent is root, focus is right child: `rotate_left(parent)` (zag);
* left-left: `rotate_right(grand); rotate_right(parent)` (zig-zig);
* right-right: `rotate_left(grand); rotate_left(parent)` (zig-zig);
* left-right: `rotate_left(parent); rotate_right(grand)` (zig-zag);
* right-left: `rotate_right(parent); rotate_left(grand)` (zig-zag).
The loop ends when the focus has no parent, i.e. the context is `root`. -/
def splayLoop (k ti : String) (ts : Int) (l r : CTree) : Ctx → CTree
  | .root => .node k ti ts l r
  | .leftOf pk pt pts sib .root =>
    .node k ti ts l (.node pk pt pts r sib)
  | .rightOf pk pt pts sib .root =>
    .node k ti ts (.node pk pt pts sib l) r
  | .leftOf pk pt pts psib (.leftOf gk gt gts gsib up) =>
    splayLoop k ti ts l (.node pk pt pts r (.node gk gt gts psib gsib)) up
  | .rightOf pk pt pts psib (.rightOf gk gt gts gsib up) =>
    splayLoop k ti ts (.node pk pt pts (.node gk gt gts gsib psib) l) r up
  | .rightOf pk pt pts psib (.leftOf gk gt gts gsib up) =>
    splayLoop k ti ts (.node pk pt pts psib l) (.node gk gt gts r gsib) up
  | .leftOf pk pt pts psib (.rightOf gk gt gts gsib up) =>
    splayLoop k ti ts (.node gk gt gts gsib l) (.node pk pt pts r psib) up

/-- BST descent for key `k` recording the path as a context; on an exact
match the found node is splayed to the root from its recorded position.
This is the composition `find_node` followed by `splay` of the C code:
`find_node` walks exactly this comparison path, and `splay` then climbs
the very parent chain the walk recorded.  `none` exactly when `find_node`
returns NULL (no splay happens then). -/
def splayFind (k : String) : CTree → Ctx → Option CTree
  | .nil, _ => none
  | .node ck ct cts l r, ctx =>
    match scmp k ck with
    | .eq => some (splayLoop ck ct cts l r ctx)
    | .lt => splayFind k l (.leftOf ck ct cts r ctx)
    | .gt => splayFind k r (.rightOf ck ct cts l ctx)

/-- The `while (max_left->right) max_left = max_left->right;` walk of
`delete_chat` followed by `splay(tree, max_left)`: descend to the
rightmost node recording the path, then splay it from there. -/
def splayMax : CTree → Ctx → CTree
  | .nil, _ => .nil
  | .node ck ct cts l .nil, ctx => splayLoop ck ct cts l .nil ctx
  | .node ck ct cts l (.node rk rt rts rl rr), ctx =>
    splayMax (.node rk rt rts rl rr) (.rightOf ck ct cts l ctx)

/-- The `find_node` function: plain BST descent, no splay, returning the
found node's data or `none` for NULL. -/
def find_node : CTree → String → Option Entry
  | .nil, _ => none
  | .node ck ct cts l r, k =>
    match scmp k ck with
    | .eq => some (ck, ct, cts)
    | .lt => find_node l k
    | .gt => find_node r k

/-- Descent loop of `insert_chat` on a non-empty tree, carrying the
recorded path.  On `strcmp == 0` the existing node's title and timestamp
are overwritten (`strncpy` truncation on the title) and that node is
splayed; on reaching NULL the new node (with both fields truncated by
`create_node`'s `strncpy`) is attached on the side of the last
comparison and splayed.  The boolean reports whether a new node was
created (`tree->size++` path). -/
def insertGo (id title : String) (ts : Int) : CTree → Ctx → CTree × Bool
  | .nil, ctx =>
    (splayLoop (strTake (MAX_ID_LEN - 1) id) (strTake (MAX_TITLE_LEN - 1) title) ts
      .nil .nil ctx, true)
  | .node ck ct cts l r, ctx =>
    match scmp id ck with
    | .eq => (splayLoop ck (strTake (MAX_TITLE_LEN - 1) title) ts l r ctx, false)
    | .lt => insertGo id title ts l (.leftOf ck ct cts r ctx)
    | .gt => insertGo id title ts r (.rightOf ck ct cts l ctx)

/-- The `insert_chat` function.  Empty tree: the new (truncated) node
becomes the root and `size` is set to 1.  Otherwise the descent loop
runs and `size` is incremented exactly when a new node was attached. -/
def insert_chat (t : SplayTree) (id title : String) (ts : Int) : SplayTree :=
  match t.root with
  | .nil =>
    { root := .node (strTake (MAX_ID_LEN - 1) id) (strTake (MAX_TITLE_LEN - 1) title) ts
        .nil .nil,
      size := 1 }
  | .node ck ct cts l r =>
    let res := insertGo id title ts (.node ck ct cts l r) .root
    { root := res.1, size := if res.2 then t.size + 1 else t.size }

/-- The `access_chat` function: `find_node`, then `splay` if found.  The
returned value is the found node's data (which, after the splay, sits at
the root).  `splayFind` is exactly this find-then-splay composition. -/
def access_chat (t : SplayTree) (id : String) : SplayTree × Option Entry :=
  match splayFind id t.root .root with
  | some res => ({ root := res, size := t.size }, rootEntry res)
  | none => (t, none)

/-- The `delete_chat` function.  `find_node` then `splay` brings the
target to the root (modelled by `splayFind`); then:
no left child — the right child becomes the root; no right child — the
left child becomes the root; both children — the left subtree becomes
the root, its maximum node is splayed to its top (`splayMax`), and the
right subtree is written into that node's `right` pointer.  On a found
key `size` is decremented and `true` returned; on NULL, `false` and no
change. -/
def delete_chat (t : SplayTree) (id : String) : SplayTree × Bool :=
  match splayFind id t.root .root with
  | some (.node _ _ _ l r) =>
    let newRoot : CTree :=
      match l, r with
      | .nil, _ => r
      | _, .nil => l
      | _, _ =>
        match splayMax l .root with
        | .node mk mt mts ml _ => .node mk mt mts ml r
        | .nil => r
    ({ root := newRoot, size := t.size - 1 }, true)
  | _ => (t, false)

/-- The `collect_inorder` function: in-order traversal appending into a
fixed buffer of `MAX_CHATS` slots; every call returns immediately once
the buffer is full, and the slot check is repeated before the node
itself is stored. -/
def collect_inorder : CTree → List Entry → List Entry
  | .nil, acc => acc
  | .node ck ct cts l r, acc =>
    if MAX_CHATS ≤ acc.length then acc
    else
      let acc1 := collect_inorder l acc
      let acc2 := if acc1.length < MAX_CHATS then acc1 ++ [(ck, ct, cts)] else acc1
      collect_inorder r acc2

/-- The `compare_by_timestamp` comparator handed to `qsort` (descending
timestamps; `0` on ties, so `qsort` — whose order on compare-equal
elements the C standard leaves unspecified — is free to arrange
equal-timestamp entries arbitrarily). -/
def compare_by_timestamp (a b : Entry) : Int :=
  if a.2.2 < b.2.2 then 1 else if b.2.2 < a.2.2 then -1 else 0

/-- The `json_escape` loop.  `j` is the output cursor; the loop stops at
the end of the input or once `j < max_len - 2` fails.  A quote or a
backslash is preceded by a backslash; a newline becomes backslash-`n`; a
carriage return is dropped; anything else is copied. -/
def jsonEscapeGo (maxLen : Nat) : List Char → Nat → List Char
  | [], _ => []
  | c :: rest, j =>
    if j < maxLen - 2 then
      let chunk : List Char :=
        if c = '"' then ['\\', '"']
        else if c = '\\' then ['\\', '\\']
        else if c = '\n' then ['\\', 'n']
        else if c = '\r' then []
        else [c]
      chunk ++ jsonEscapeGo maxLen rest (j + chunk.length)
    else []

/-- `json_escape` as called by the program: the output buffer is always
`char[MAX_TITLE_LEN * 2]`, so `max_len` is 512. -/
def json_escape (s : List Char) : List Char := jsonEscapeGo (MAX_TITLE_LEN * 2) s 0

/-- The title-reading loop of `load_from_file`.  The first argument is
the remaining output capacity (`MAX_TITLE_LEN - 1` minus the characters
already stored).  Backslash-quote yields a quote, backslash-`n` a
newline, a bare quote ends the title, anything else (including a lone
backslash) is copied. -/
def unescapeGo : Nat → List Char → List Char
  | 0, _ => []
  | _ + 1, [] => []
  | n + 1, [c] =>
    if c = '"' then [] else c :: unescapeGo n []
  | n + 1, c :: c2 :: rest =>
    if c = '\\' ∧ c2 = '"' then '"' :: unescapeGo n rest
    else if c = '\\' ∧ c2 = 'n' then '\n' :: unescapeGo n rest
    else if c = '"' then []
    else c :: unescapeGo n (c2 :: rest)

/-- One mutating command against the tree: `add` (→ `insert_chat`) or
`delete` (→ `delete_chat`). -/
inductive Op where
  | ins (id title : String) (ts : Int) : Op
  | del (id : String) : Op

/-- Apply one operation to the tree state. -/
def applyOp (t : SplayTree) : Op → SplayTree
  | .ins id title ts => insert_chat t id title ts
  | .del id => (delete_chat t id).1

/-- The tree produced from the empty tree by a sequence of operations. -/
def buildTree (ops : List Op) : SplayTree := ops.foldl applyOp emptyTree

/-- Proof-side description of what the `insert_chat` descent does to the
tree before the splay: attach the (truncated) new node at the BST
position of the full input key, or overwrite title/timestamp in place on
an exact match.  `insertGo` is proved to produce a tree with the same
in-order sequence as this one. -/
def bstInsert (id title : String) (ts : Int) : CTree → CTree
  | .nil =>
    .node (strTake (MAX_ID_LEN - 1) id) (strTake (MAX_TITLE_LEN - 1) title) ts .nil .nil
  | .node ck ct cts l r =>
    match scmp id ck with
    | .eq => .node ck (strTake (MAX_TITLE_LEN - 1) title) ts l r
    | .lt => .node ck ct cts (bstInsert id title ts l) r
    | .gt => .node ck ct cts l (bstInsert id title ts r)

/-! ### Order facts about `strcmp` -/

theorem strcmp_self : ∀ l : List Char, strcmp l l = Ordering.eq
  | [] => rfl
  | a :: as => by simp [strcmp, lt_irrefl, strcmp_self as]

theorem strcmp_eq_iff : ∀ a b : List Char, strcmp a b = Ordering.eq ↔ a = b
  | [], [] => by simp [strcmp]
  | [], _ :: _ => by simp [strcmp]
  | _ :: _, [] => by simp [strcmp]
  | a :: as, b :: bs => by
    by_cases h1 : a < b
    · simp only [strcmp, if_pos h1]
      constructor
      · intro h; cases h
      · rintro ⟨rfl, rfl⟩; exact absurd h1 (lt_irrefl a)
    · by_cases h2 : b < a
      · simp only [strcmp, if_neg h1, if_pos h2]
        constructor
        · intro h; cases h
        · rintro ⟨rfl, rfl⟩; exact absurd h2 (lt_irrefl a)
      · have hab : a = b := le_antisymm (not_lt.mp h2) (not_lt.mp h1)
        subst hab
        simp [strcmp, strcmp_eq_iff as bs]

theorem strcmp_gt_iff : ∀ a b : List Char, strcmp a b = Ordering.gt ↔ strcmp b a = Ordering.lt
  | [], [] => by simp [strcmp]
  | [], _ :: _ => by simp [strcmp]
  | _ :: _, [] => by simp [strcmp]
  | a :: as, b :: bs => by
    by_cases h1 : a < b
    · have h2 : ¬ b < a := lt_asymm h1
      simp [strcmp, h1, h2]
    · by_cases h2 : b < a
      · simp [strcmp, h1, h2]
      · have hab : a = b := le_antisymm (not_lt.mp h2) (not_lt.mp h1)
        subst hab
        simp [strcmp, h1, strcmp_gt_iff as bs]

theorem strcmp_lt_trans :
    ∀ a b c : List Char, strcmp a b = Ordering.lt → strcmp b c = Ordering.lt →
      strcmp a c = Ordering.lt := by
  intro a
  induction a with
  | nil =>
    intro b c h1 h2
    cases c with
    | nil =>
      cases b with
      | nil => simp [strcmp] at h2
      | cons x xs => simp [strcmp] at h2
    | cons c cs => simp [strcmp]
  | cons a as ih =>
    intro b c h1 h2
    cases b with
    | nil => simp [strcmp] at h1
    | cons b bs =>
      cases c with
      | nil => simp [strcmp] at h2
      | cons c cs =>
        simp only [strcmp] at h1 h2 ⊢
        by_cases hab : a < b
        · by_cases hbc : b < c
          · simp [lt_trans hab hbc]
          · by_cases hcb : c < b
            · simp [hbc, hcb] at h2
            · have hbc2 : b = c := le_antisymm (not_lt.mp hcb) (not_lt.mp hbc)
              subst hbc2
              simp [hab]
        · by_cases hba : b < a
          · simp [hab, hba] at h1
          · have hab2 : a = b := le_antisymm (not_lt.mp hba) (not_lt.mp hab)
            subst hab2
            simp only [if_neg hab, lt_irrefl, if_neg (fun h => absurd h (lt_irrefl a))] at h1 h2 ⊢
            by_cases hac : a < c
            · simp [hac]
            · by_cases hca : c < a
              · simp [hac, hca] at h2
              · simp only [if_neg hac, if_neg hca] at h2 ⊢
                exact ih bs cs h1 h2

theorem scmp_refl (a : String) : scmp a a = Ordering.eq := strcmp_self a.data

theorem scmp_eq_iff {a b : String} : scmp a b = Ordering.eq ↔ a = b := by
  unfold scmp
  rw [strcmp_eq_iff]
  constructor
  · intro h
    cases a with
    | mk da =>
      cases b with
      | mk db => exact congrArg String.mk h
  · intro h; rw [h]

theorem scmp_gt_iff {a b : String} : scmp a b = Ordering.gt ↔ KLt b a := by
  unfold scmp KLt scmp
  exact strcmp_gt_iff a.data b.data

theorem KLt_trans {a b c : String} (h1 : KLt a b) (h2 : KLt b c) : KLt a c :=
  strcmp_lt_trans a.data b.data c.data h1 h2

theorem KLt_irrefl (a : String) : ¬ KLt a a := by
  unfold KLt
  rw [scmp_refl]
  intro h; cases h

theorem KLt_ne {a b : String} (h : KLt a b) : a ≠ b := by
  intro hab
  subst hab
  exact KLt_irrefl a h

theorem KLt_asymm {a b : String} (h : KLt a b) : ¬ KLt b a := fun h2 =>
  KLt_irrefl a (KLt_trans h h2)

/-! ### In-order sequences, contexts, and the splay loop -/

theorem keys_nil : keys CTree.nil = [] := rfl

theorem keys_node (k ti : String) (ts : Int) (l r : CTree) :
    keys (.node k ti ts l r) = keys l ++ k :: keys r := by
  simp [keys, inorder]

theorem keys_ne_nil {t : CTree} (h : t ≠ .nil) : keys t ≠ [] := by
  cases t with
  | nil => exact absurd rfl h
  | node k ti ts l r => simp [keys_node]

/-- Plugging two trees with equal in-order sequences into the same
context yields equal in-order sequences. -/
theorem inorder_plug_eq :
    ∀ (ctx : Ctx) (a b : CTree), inorder a = inorder b →
      inorder (plug ctx a) = inorder (plug ctx b)
  | .root, _, _, h => h
  | .leftOf k ti ts sib up, _, _, h =>
    inorder_plug_eq up _ _ (by simp [inorder, h])
  | .rightOf k ti ts sib up, _, _, h =>
    inorder_plug_eq up _ _ (by simp [inorder, h])

/-- The splay loop rearranges the tree but preserves the in-order
sequence: its result reads, in order, exactly like the original tree
that the focus and its context decompose. -/
theorem inorder_splayLoop :
    ∀ (ctx : Ctx) (k ti : String) (ts : Int) (l r : CTree),
      inorder (splayLoop k ti ts l r ctx) = inorder (plug ctx (.node k ti ts l r))
  | .root, _, _, _, _, _ => rfl
  | .leftOf pk pt pts sib .root, k, ti, ts, l, r => by
    simp [splayLoop, plug, inorder]
  | .rightOf pk pt pts sib .root, k, ti, ts, l, r => by
    simp [splayLoop, plug, inorder]
  | .leftOf pk pt pts psib (.leftOf gk gt gts gsib up), k, ti, ts, l, r => by
    simp only [splayLoop, plug]
    rw [inorder_splayLoop up]
    exact inorder_plug_eq up _ _ (by simp [inorder])
  | .rightOf pk pt pts psib (.rightOf gk gt gts gsib up), k, ti, ts, l, r => by
    simp only [splayLoop, plug]
    rw [inorder_splayLoop up]
    exact inorder_plug_eq up _ _ (by simp [inorder])
  | .rightOf pk pt pts psib (.leftOf gk gt gts gsib up), k, ti, ts, l, r => by
    simp only [splayLoop, plug]
    rw [inorder_splayLoop up]
    exact inorder_plug_eq up _ _ (by simp [inorder])
  | .leftOf pk pt pts psib (.rightOf gk gt gts gsib up), k, ti, ts, l, r => by
    simp only [splayLoop, plug]
    rw [inorder_splayLoop up]
    exact inorder_plug_eq up _ _ (by simp [inorder])

/-- The splay loop carries the focus node — key, title and timestamp —
to the root. -/
theorem splayLoop_shape :
    ∀ (ctx : Ctx) (k ti : String) (ts : Int) (l r : CTree),
      ∃ l2 r2, splayLoop k ti ts l r ctx = .node k ti ts l2 r2
  | .root, k, ti, ts, l, r => ⟨l, r, rfl⟩
  | .leftOf pk pt pts sib .root, k, ti, ts, l, r => ⟨_, _, rfl⟩
  | .rightOf pk pt pts sib .root, k, ti, ts, l, r => ⟨_, _, rfl⟩
  | .leftOf pk pt pts psib (.leftOf gk gt gts gsib up), k, ti, ts, l, r =>
    splayLoop_shape up k ti ts _ _
  | .rightOf pk pt pts psib (.rightOf gk gt gts gsib up), k, ti, ts, l, r =>
    splayLoop_shape up k ti ts _ _
  | .rightOf pk pt pts psib (.leftOf gk gt gts gsib up), k, ti, ts, l, r =>
    splayLoop_shape up k ti ts _ _
  | .leftOf pk pt pts psib (.rightOf gk gt gts gsib up), k, ti, ts, l, r =>
    splayLoop_shape up k ti ts _ _

/-- A context all of whose frames are `rightOf`: the ancestor chain of a
node reached by following only `right` pointers. -/
def rightSpine : Ctx → Prop
  | .root => True
  | .rightOf _ _ _ _ up => rightSpine up
  | .leftOf _ _ _ _ _ => False

/-- Splaying a node with no right child up a pure right spine keeps its
right child empty: every step matched is a zag or right-right zig-zig,
and both graft new material only on the left. -/
theorem splayLoop_rightSpine :
    ∀ (ctx : Ctx), rightSpine ctx → ∀ (k ti : String) (ts : Int) (l : CTree),
      ∃ l2, splayLoop k ti ts l .nil ctx = .node k ti ts l2 .nil
  | .root, _, k, ti, ts, l => ⟨l, rfl⟩
  | .rightOf pk pt pts sib .root, _, k, ti, ts, l => ⟨_, rfl⟩
  | .rightOf pk pt pts psib (.rightOf gk gt gts gsib up), h, k, ti, ts, l =>
    splayLoop_rightSpine up h k ti ts _
  | .rightOf pk pt pts psib (.leftOf gk gt gts gsib up), h, k, ti, ts, l =>
    absurd h id
  | .leftOf pk pt pts psib up, h, k, ti, ts, l => absurd h id

/-- `splayMax` preserves the in-order sequence of the decomposed tree. -/
theorem splayMax_inorder :
    ∀ (t : CTree) (ctx : Ctx), t ≠ .nil →
      inorder (splayMax t ctx) = inorder (plug ctx t)
  | .nil, _, h => absurd rfl h
  | .node ck ct cts l .nil, ctx, _ => by
    simp only [splayMax]
    rw [inorder_splayLoop]
  | .node ck ct cts l (.node rk rt rts rl rr), ctx, _ => by
    simp only [splayMax]
    rw [splayMax_inorder (.node rk rt rts rl rr) (.rightOf ck ct cts l ctx) (by simp)]
    rfl

/-- `splayMax` from a right-spine context brings the rightmost node — the
one holding the last in-order key — to the root, with no right child. -/
theorem splayMax_spec :
    ∀ (t : CTree) (ctx : Ctx), rightSpine ctx → t ≠ .nil →
      ∃ mk mt mts ml, splayMax t ctx = .node mk mt mts ml .nil ∧
        (keys t).getLast? = some mk
  | .nil, _, _, h => absurd rfl h
  | .node ck ct cts l .nil, ctx, hsp, _ => by
    obtain ⟨l2, hl2⟩ := splayLoop_rightSpine ctx hsp ck ct cts l
    refine ⟨ck, ct, cts, l2, by simpa [splayMax] using hl2, ?_⟩
    simp [keys_node, keys_nil, List.getLast?_concat]
  | .node ck ct cts l (.node rk rt rts rl rr), ctx, hsp, _ => by
    obtain ⟨mk, mt, mts, ml, heq, hlast⟩ :=
      splayMax_spec (.node rk rt rts rl rr) (.rightOf ck ct cts l ctx) hsp (by simp)
    refine ⟨mk, mt, mts, ml, by simpa [splayMax] using heq, ?_⟩
    rw [keys_node, List.getLast?_append_cons]
    rw [keys_node] at hlast
    rw [keys_node, ← List.cons_append, List.getLast?_append_cons]
    rwa [List.getLast?_append_cons] at hlast

/-- `splayFind` fails exactly when the plain BST search `find_node`
fails: both walk the same comparison path. -/
theorem splayFind_none_iff :
    ∀ (t : CTree) (ctx : Ctx) (k : String),
      splayFind k t ctx = none ↔ find_node t k = none
  | .nil, _, _ => by simp [splayFind, find_node]
  | .node ck ct cts l r, ctx, k => by
    cases hc : scmp k ck with
    | eq => simp [splayFind, find_node, hc]
    | lt => simp [splayFind, find_node, hc,
        splayFind_none_iff l (.leftOf ck ct cts r ctx) k]
    | gt => simp [splayFind, find_node, hc,
        splayFind_none_iff r (.rightOf ck ct cts l ctx) k]

/-- When `splayFind` succeeds, the result is a tree rooted at a node
whose key is the searched key, whose data was already an entry of the
searched tree, and whose in-order sequence is that of the full
decomposed tree. -/
theorem splayFind_spec :
    ∀ (t : CTree) (ctx : Ctx) (k : String) (res : CTree),
      splayFind k t ctx = some res →
      ∃ ti ts L R, res = .node k ti ts L R ∧
        inorder res = inorder (plug ctx t) ∧ (k, ti, ts) ∈ inorder t
  | .nil, _, _, _, h => by simp [splayFind] at h
  | .node ck ct cts l r, ctx, k, res, h => by
    cases hc : scmp k ck with
    | eq =>
      have hk : k = ck := scmp_eq_iff.mp hc
      subst hk
      simp only [splayFind, hc, Option.some.injEq] at h
      obtain ⟨l2, r2, hshape⟩ := splayLoop_shape ctx k ct cts l r
      subst h
      exact ⟨ct, cts, l2, r2, hshape, inorder_splayLoop ctx k ct cts l r,
        by simp [inorder]⟩
    | lt =>
      simp only [splayFind, hc] at h
      obtain ⟨ti, ts, L, R, h1, h2, h3⟩ :=
        splayFind_spec l (.leftOf ck ct cts r ctx) k res h
      exact ⟨ti, ts, L, R, h1, h2, by simp [inorder, h3]⟩
    | gt =>
      simp only [splayFind, hc] at h
      obtain ⟨ti, ts, L, R, h1, h2, h3⟩ :=
        splayFind_spec r (.rightOf ck ct cts l ctx) k res h
      exact ⟨ti, ts, L, R, h1, h2, by simp [inorder, h3]⟩

/-- A successful `find_node` returns an entry of the tree bearing the
searched key. -/
theorem find_some_mem :
    ∀ (t : CTree) (k : String) (e : Entry), find_node t k = some e →
      e ∈ inorder t ∧ e.1 = k
  | .nil, _, _, h => by simp [find_node] at h
  | .node ck ct cts l r, k, e, h => by
    cases hc : scmp k ck with
    | eq =>
      simp only [find_node, hc, Option.some.injEq] at h
      have hk : k = ck := scmp_eq_iff.mp hc
      subst h
      simp [inorder, hk]
    | lt =>
      simp only [find_node, hc] at h
      obtain ⟨h1, h2⟩ := find_some_mem l k e h
      exact ⟨by simp [inorder, h1], h2⟩
    | gt =>
      simp only [find_node, hc] at h
      obtain ⟨h1, h2⟩ := find_some_mem r k e h
      exact ⟨by simp [inorder, h1], h2⟩

/-- On a tree with a strictly sorted in-order key sequence, `find_node`
finds every key that is present. -/
theorem find_complete :
    ∀ (t : CTree) (k : String), List.Pairwise KLt (keys t) → k ∈ keys t →
      (find_node t k).isSome
  | .nil, k, _, hmem => by simp [keys_nil] at hmem
  | .node ck ct cts l r, k, hsor, hmem => by
    rw [keys_node] at hsor hmem
    rw [List.pairwise_append] at hsor
    obtain ⟨hl, hcr, hcross⟩ := hsor
    cases hc : scmp k ck with
    | eq => simp [find_node, hc]
    | lt =>
      have hklt : KLt k ck := hc
      simp only [find_node, hc]
      apply find_complete l k hl
      rcases List.mem_append.mp hmem with h | h
      · exact h
      · rcases List.mem_cons.mp h with rfl | h
        · exact absurd hklt (KLt_irrefl k)
        · exact absurd hklt (KLt_asymm ((List.pairwise_cons.mp hcr).1 k h))
    | gt =>
      have hklt : KLt ck k := scmp_gt_iff.mp hc
      simp only [find_node, hc]
      apply find_complete r k (List.pairwise_cons.mp hcr).2
      rcases List.mem_append.mp hmem with h | h
      · exact absurd (hcross k h ck (List.mem_cons_self ck _)) (KLt_asymm hklt)
      · rcases List.mem_cons.mp h with rfl | h
        · exact absurd hklt (KLt_irrefl k)
        · exact h

/-! ### Truncation -/

theorem strTake_of_le {n : Nat} {s : String} (h : s.data.length ≤ n) :
    strTake n s = s := by
  unfold strTake
  cases s with
  | mk d => exact congrArg String.mk (List.take_of_length_le h)

theorem strTake_length_le (n : Nat) (s : String) : (strTake n s).data.length ≤ n := by
  simp [strTake]

/-! ### The insert descent -/

/-- The insert descent produces a tree whose in-order sequence is that of
the plain (splay-free) BST insertion `bstInsert` in the same context. -/
theorem insertGo_inorder (id title : String) (ts : Int) :
    ∀ (t : CTree) (ctx : Ctx),
      inorder (insertGo id title ts t ctx).1 =
        inorder (plug ctx (bstInsert id title ts t))
  | .nil, ctx => by
    simp only [insertGo, bstInsert]
    exact inorder_splayLoop ctx _ _ _ _ _
  | .node ck ct cts l r, ctx => by
    cases hc : scmp id ck with
    | eq =>
      simp only [insertGo, bstInsert, hc]
      exact inorder_splayLoop ctx _ _ _ _ _
    | lt =>
      simp only [insertGo, bstInsert, hc]
      exact insertGo_inorder id title ts l (.leftOf ck ct cts r ctx)
    | gt =>
      simp only [insertGo, bstInsert, hc]
      exact insertGo_inorder id title ts r (.rightOf ck ct cts l ctx)

/-- The insert descent reports a new node exactly when the plain search
fails. -/
theorem insertGo_isNew (id title : String) (ts : Int) :
    ∀ (t : CTree) (ctx : Ctx),
      (insertGo id title ts t ctx).2 = (find_node t id).isNone
  | .nil, _ => by simp [insertGo, find_node]
  | .node ck ct cts l r, ctx => by
    cases hc : scmp id ck with
    | eq => simp [insertGo, find_node, hc]
    | lt =>
      simpa [insertGo, find_node, hc] using
        insertGo_isNew id title ts l (.leftOf ck ct cts r ctx)
    | gt =>
      simpa [insertGo, find_node, hc] using
        insertGo_isNew id title ts r (.rightOf ck ct cts l ctx)

/-- The key at the root after the insert descent: the full input key if
an existing node matched it, and the truncated copy stored by
`create_node` if a new node was attached. -/
theorem insertGo_rootKey (id title : String) (ts : Int) :
    ∀ (t : CTree) (ctx : Ctx),
      rootKey (insertGo id title ts t ctx).1 =
        some (if (find_node t id).isSome then id else strTake (MAX_ID_LEN - 1) id)
  | .nil, ctx => by
    obtain ⟨l2, r2, h⟩ := splayLoop_shape ctx (strTake (MAX_ID_LEN - 1) id)
      (strTake (MAX_TITLE_LEN - 1) title) ts .nil .nil
    simp [insertGo, find_node, h, rootKey]
  | .node ck ct cts l r, ctx => by
    cases hc : scmp id ck with
    | eq =>
      have hk : id = ck := scmp_eq_iff.mp hc
      subst hk
      obtain ⟨l2, r2, h⟩ := splayLoop_shape ctx id (strTake (MAX_TITLE_LEN - 1) title) ts l r
      simp [insertGo, find_node, hc, h, rootKey]
    | lt =>
      simpa [insertGo, find_node, hc] using
        insertGo_rootKey id title ts l (.leftOf ck ct cts r ctx)
    | gt =>
      simpa [insertGo, find_node, hc] using
        insertGo_rootKey id title ts r (.rightOf ck ct cts l ctx)

/-- After `insert_chat` of a key short enough not to be truncated, the
root holds exactly that key. -/
theorem insert_rootKey (t : SplayTree) (id title : String) (ts : Int)
    (h : strTake (MAX_ID_LEN - 1) id = id) :
    rootKey (insert_chat t id title ts).root = some id := by
  cases ht : t.root with
  | nil => simp [insert_chat, ht, rootKey, h]
  | node ck ct cts l r =>
    simp only [insert_chat, ht]
    rw [insertGo_rootKey id title ts (.node ck ct cts l r) .root]
    split <;> simp [h]

/-- The in-order sequence after `insert_chat` is the in-order sequence of
the plain BST insertion: the splay only rearranges. -/
theorem insert_inorder (t : SplayTree) (id title : String) (ts : Int) :
    inorder (insert_chat t id title ts).root = inorder (bstInsert id title ts t.root) := by
  cases ht : t.root with
  | nil => simp [insert_chat, bstInsert, ht]
  | node ck ct cts l r =>
    simp only [insert_chat, ht]
    exact insertGo_inorder id title ts (.node ck ct cts l r) .root

/-- Size bookkeeping of `insert_chat`: for a tree whose `size` field
matches its node count, the size grows by one exactly when the key was
not found. -/
theorem insert_size (t : SplayTree) (id title : String) (ts : Int)
    (h : t.size = ((inorder t.root).length : Int)) :
    (insert_chat t id title ts).size =
      if (find_node t.root id).isSome then t.size else t.size + 1 := by
  cases ht : t.root with
  | nil =>
    rw [ht] at h
    simp only [inorder, List.length_nil, Int.natCast_zero] at h
    simp [insert_chat, ht, find_node, h]
  | node ck ct cts l r =>
    simp only [insert_chat, ht]
    rw [insertGo_isNew id title ts (.node ck ct cts l r) .root]
    cases hf : find_node (.node ck ct cts l r) id <;> simp [hf]

/-! ### Plain BST insertion: keys, sortedness, bounds -/

theorem bstInsert_keys_mem (id title : String) (ts : Int) :
    ∀ (t : CTree) (x : String), x ∈ keys (bstInsert id title ts t) →
      x ∈ keys t ∨ x = strTake (MAX_ID_LEN - 1) id
  | .nil, x, h => by
    simp only [bstInsert, keys_node, keys_nil] at h
    simp at h
    exact Or.inr h
  | .node ck ct cts l r, x, h => by
    cases hc : scmp id ck with
    | eq =>
      simp only [bstInsert, hc, keys_node] at h ⊢
      exact Or.inl h
    | lt =>
      simp only [bstInsert, hc, keys_node, List.mem_append, List.mem_cons] at h ⊢
      rcases h with h | h
      · rcases bstInsert_keys_mem id title ts l x h with h2 | h2
        · exact Or.inl (Or.inl h2)
        · exact Or.inr h2
      · exact Or.inl (Or.inr h)
    | gt =>
      simp only [bstInsert, hc, keys_node, List.mem_append, List.mem_cons] at h ⊢
      rcases h with h | h | h
      · exact Or.inl (Or.inl h)
      · exact Or.inl (Or.inr (Or.inl h))
      · rcases bstInsert_keys_mem id title ts r x h with h2 | h2
        · exact Or.inl (Or.inr (Or.inr h2))
        · exact Or.inr h2

/-- Inserting an untruncated key into a tree with strictly sorted
in-order keys keeps them strictly sorted. -/
theorem bstInsert_sorted (id title : String) (ts : Int)
    (hid : strTake (MAX_ID_LEN - 1) id = id) :
    ∀ (t : CTree), List.Pairwise KLt (keys t) →
      List.Pairwise KLt (keys (bstInsert id title ts t))
  | .nil, _ => by simp [bstInsert, keys_node, keys_nil]
  | .node ck ct cts l r, hsor => by
    rw [keys_node, List.pairwise_append] at hsor
    obtain ⟨hl, hcr, hcross⟩ := hsor
    cases hc : scmp id ck with
    | eq =>
      simp only [bstInsert, hc]
      rw [keys_node, List.pairwise_append]
      exact ⟨hl, hcr, hcross⟩
    | lt =>
      have hlt : KLt id ck := hc
      simp only [bstInsert, hc]
      rw [keys_node, List.pairwise_append]
      refine ⟨bstInsert_sorted id title ts hid l hl, hcr, ?_⟩
      intro a ha b hb
      rcases bstInsert_keys_mem id title ts l a ha with h | h
      · exact hcross a h b hb
      · rw [hid] at h
        subst h
        rcases List.mem_cons.mp hb with rfl | hb
        · exact hlt
        · exact KLt_trans hlt ((List.pairwise_cons.mp hcr).1 b hb)
    | gt =>
      have hgt : KLt ck id := scmp_gt_iff.mp hc
      simp only [bstInsert, hc]
      rw [keys_node, List.pairwise_append]
      obtain ⟨hck, hr⟩ := List.pairwise_cons.mp hcr
      refine ⟨hl, ?_, ?_⟩
      · rw [List.pairwise_cons]
        refine ⟨?_, bstInsert_sorted id title ts hid r hr⟩
        intro b hb
        rcases bstInsert_keys_mem id title ts r b hb with h | h
        · exact hck b h
        · rw [hid] at h; subst h; exact hgt
      · intro a ha b hb
        rcases List.mem_cons.mp hb with rfl | hb
        · exact hcross a ha b (List.mem_cons_self _ _)
        · rcases bstInsert_keys_mem id title ts r b hb with h | h
          · exact hcross a ha b (List.mem_cons_of_mem _ h)
          · rw [hid] at h
            subst h
            exact KLt_trans (hcross a ha ck (List.mem_cons_self _ _)) hgt

/-- Field-width bound on one entry: what `strncpy` into the fixed
`char[MAX_ID_LEN]` / `char[MAX_TITLE_LEN]` buffers guarantees. -/
def EntryBounded (e : Entry) : Prop :=
  e.1.data.length ≤ MAX_ID_LEN - 1 ∧ e.2.1.data.length ≤ MAX_TITLE_LEN - 1

/-- Plain BST insertion only ever stores truncated keys and titles. -/
theorem bstInsert_bounded (id title : String) (ts : Int) :
    ∀ (t : CTree), (∀ e ∈ inorder t, EntryBounded e) →
      ∀ e ∈ inorder (bstInsert id title ts t), EntryBounded e
  | .nil, _, e, he => by
    simp only [bstInsert, inorder, List.nil_append, List.mem_singleton] at he
    subst he
    exact ⟨strTake_length_le _ _, strTake_length_le _ _⟩
  | .node ck ct cts l r, hb, e, he => by
    have hbl : ∀ e2 ∈ inorder l, EntryBounded e2 :=
      fun e2 he2 => hb e2 (by simp [inorder, he2])
    have hbr : ∀ e2 ∈ inorder r, EntryBounded e2 :=
      fun e2 he2 => hb e2 (by simp [inorder, he2])
    have hbc : EntryBounded (ck, ct, cts) := hb (ck, ct, cts) (by simp [inorder])
    cases hc : scmp id ck with
    | eq =>
      simp only [bstInsert, hc, inorder, List.mem_append, List.mem_cons] at he
      rcases he with h | h | h
      · exact hbl e h
      · subst h
        exact ⟨hbc.1, strTake_length_le _ _⟩
      · exact hbr e h
    | lt =>
      simp only [bstInsert, hc, inorder, List.mem_append, List.mem_cons] at he
      rcases he with h | h | h
      · exact bstInsert_bounded id title ts l hbl e h
      · subst h
        exact hbc
      · exact hbr e h
    | gt =>
      simp only [bstInsert, hc, inorder, List.mem_append, List.mem_cons] at he
      rcases he with h | h | h
      · exact hbl e h
      · subst h
        exact hbc
      · exact bstInsert_bounded id title ts r hbr e h

/-! ### Deletion -/

/-- `delete_chat` on an unfound key: no change, `false`. -/
theorem delete_notfound (t : SplayTree) (k : String)
    (h : splayFind k t.root .root = none) :
    delete_chat t k = (t, false) := by
  simp [delete_chat, h]

/-- `delete_chat` on a found key (already characterised as the splayed
root `node k ti ts L R`): reports `true`, decrements `size`, and the
remaining in-order sequence is the two subtrees' sequences spliced. -/
theorem delete_found (t : SplayTree) (k ti : String) (ts : Int) (L R : CTree)
    (h : splayFind k t.root .root = some (.node k ti ts L R)) :
    (delete_chat t k).2 = true ∧ (delete_chat t k).1.size = t.size - 1 ∧
      inorder (delete_chat t k).1.root = inorder L ++ inorder R := by
  simp only [delete_chat, h]
  cases L with
  | nil => simp [inorder]
  | node lk lt2 lts ll lr =>
    cases R with
    | nil => simp [inorder]
    | node rk rt2 rts rl rr =>
      obtain ⟨mk, mt, mts, ml, hsm, _⟩ :=
        splayMax_spec (.node lk lt2 lts ll lr) .root trivial (by simp)
      have hio : inorder (splayMax (.node lk lt2 lts ll lr) .root) =
          inorder (.node lk lt2 lts ll lr) :=
        splayMax_inorder _ .root (by simp)
      rw [hsm] at hio
      simp only [inorder, List.append_nil] at hio
      simp only [hsm, inorder]
      refine ⟨trivial, trivial, ?_⟩
      rw [← hio]
      simp

/-- The full in-order sequence of a tree on which `splayFind` succeeded,
decomposed around the found entry. -/
theorem splayFind_root_decomp (t : SplayTree) (k ti : String) (ts : Int) (L R : CTree)
    (h : splayFind k t.root .root = some (.node k ti ts L R)) :
    inorder t.root = inorder L ++ (k, ti, ts) :: inorder R := by
  obtain ⟨ti2, ts2, L2, R2, heq, h2, _⟩ := splayFind_spec t.root .root k _ h
  cases heq
  have h3 : inorder (CTree.node k ti ts L R) = inorder t.root := h2
  rw [← h3]
  simp [inorder]

/-! ### Invariant preservation by the public operations -/

/-- Keys only depend on the in-order sequence. -/
theorem keys_congr {a b : CTree} (h : inorder a = inorder b) : keys a = keys b := by
  simp [keys, h]

/-- `insert_chat` of an untruncated key preserves strict sortedness of
the in-order keys. -/
theorem insert_sorted (t : SplayTree) (id title : String) (ts : Int)
    (hid : strTake (MAX_ID_LEN - 1) id = id)
    (hs : List.Pairwise KLt (keys t.root)) :
    List.Pairwise KLt (keys (insert_chat t id title ts).root) := by
  rw [keys_congr (insert_inorder t id title ts)]
  exact bstInsert_sorted id title ts hid t.root hs

/-- `insert_chat` preserves the field-width bounds on all entries. -/
theorem insert_bounded (t : SplayTree) (id title : String) (ts : Int)
    (hb : ∀ e ∈ inorder t.root, EntryBounded e) :
    ∀ e ∈ inorder (insert_chat t id title ts).root, EntryBounded e := by
  intro e he
  rw [insert_inorder] at he
  exact bstInsert_bounded id title ts t.root hb e he

/-- `delete_chat` preserves strict sortedness of the in-order keys. -/
theorem delete_sorted (t : SplayTree) (k : String)
    (hs : List.Pairwise KLt (keys t.root)) :
    List.Pairwise KLt (keys (delete_chat t k).1.root) := by
  cases hf : splayFind k t.root .root with
  | none =>
    rw [delete_notfound t k hf]
    exact hs
  | some res =>
    obtain ⟨ti, ts, L, R, rfl, _, _⟩ := splayFind_spec t.root .root k res hf
    obtain ⟨_, _, hio⟩ := delete_found t k ti ts L R hf
    have hfull := splayFind_root_decomp t k ti ts L R hf
    have hks : keys (delete_chat t k).1.root =
        (inorder L).map Prod.fst ++ (inorder R).map Prod.fst := by
      simp [keys, hio]
    have hko : keys t.root =
        (inorder L).map Prod.fst ++ k :: (inorder R).map Prod.fst := by
      simp [keys, hfull]
    rw [hks]
    rw [hko] at hs
    exact hs.sublist (List.Sublist.append_left (List.sublist_cons_self _ _) _)

/-- `delete_chat` preserves the field-width bounds on all entries. -/
theorem delete_bounded (t : SplayTree) (k : String)
    (hb : ∀ e ∈ inorder t.root, EntryBounded e) :
    ∀ e ∈ inorder (delete_chat t k).1.root, EntryBounded e := by
  cases hf : splayFind k t.root .root with
  | none =>
    rw [delete_notfound t k hf]
    exact hb
  | some res =>
    obtain ⟨ti, ts, L, R, rfl, _, _⟩ := splayFind_spec t.root .root k res hf
    obtain ⟨_, _, hio⟩ := delete_found t k ti ts L R hf
    have hfull := splayFind_root_decomp t k ti ts L R hf
    intro e he
    rw [hio] at he
    apply hb e
    rw [hfull]
    rcases List.mem_append.mp he with h | h
    · exact List.mem_append.mpr (Or.inl h)
    · exact List.mem_append.mpr (Or.inr (List.mem_cons_of_mem _ h))

/-- Keys of `add` commands that survive `strncpy` untruncated. -/
def OpShortKey : Op → Prop
  | .ins id _ _ => id.data.length ≤ MAX_ID_LEN - 1
  | .del _ => True

instance : DecidablePred OpShortKey := fun op => by
  cases op <;> (unfold OpShortKey; infer_instance)

theorem applyOp_sorted (t : SplayTree) (op : Op) (hok : OpShortKey op)
    (hs : List.Pairwise KLt (keys t.root)) :
    List.Pairwise KLt (keys (applyOp t op).root) := by
  cases op with
  | ins id title ts => exact insert_sorted t id title ts (strTake_of_le hok) hs
  | del id => exact delete_sorted t id hs

theorem applyOp_bounded (t : SplayTree) (op : Op)
    (hb : ∀ e ∈ inorder t.root, EntryBounded e) :
    ∀ e ∈ inorder (applyOp t op).root, EntryBounded e := by
  cases op with
  | ins id title ts => exact insert_bounded t id title ts hb
  | del id => exact delete_bounded t id hb

theorem foldl_sorted :
    ∀ (ops : List Op) (t : SplayTree), (∀ op ∈ ops, OpShortKey op) →
      List.Pairwise KLt (keys t.root) →
      List.Pairwise KLt (keys (ops.foldl applyOp t).root)
  | [], t, _, hs => hs
  | op :: ops, t, hok, hs =>
    foldl_sorted ops (applyOp t op) (fun o ho => hok o (List.mem_cons_of_mem _ ho))
      (applyOp_sorted t op (hok op (List.mem_cons_self _ _)) hs)

theorem foldl_bounded :
    ∀ (ops : List Op) (t : SplayTree), (∀ e ∈ inorder t.root, EntryBounded e) →
      ∀ e ∈ inorder ((ops.foldl applyOp t).root), EntryBounded e
  | [], t, hb => hb
  | op :: ops, t, hb =>
    foldl_bounded ops (applyOp t op) (applyOp_bounded t op hb)

/-- Any tree built from the empty tree by `add`/`delete` commands whose
keys are below the truncation width has a strictly sorted in-order key
sequence. -/
theorem buildTree_sorted (ops : List Op) (h : ∀ op ∈ ops, OpShortKey op) :
    List.Pairwise KLt (keys (buildTree ops).root) :=
  foldl_sorted ops emptyTree h (by simp [emptyTree, keys_nil])

/-- Any tree built from the empty tree stores only truncated keys and
titles. -/
theorem buildTree_bounded (ops : List Op) :
    ∀ e ∈ inorder (buildTree ops).root, EntryBounded e :=
  foldl_bounded ops emptyTree (by simp [emptyTree, inorder])

/-! ### The capped in-order collection -/

/-- Once the buffer is full, `collect_inorder` adds nothing. -/
theorem collect_full (t : CTree) (acc : List Entry) (h : MAX_CHATS ≤ acc.length) :
    collect_inorder t acc = acc := by
  cases t with
  | nil => rfl
  | node ck ct cts l r => simp [collect_inorder, if_pos h]

/-- `collect_inorder` appends exactly the in-order sequence truncated to
the remaining buffer capacity. -/
theorem collect_go :
    ∀ (t : CTree) (acc : List Entry),
      collect_inorder t acc = acc ++ (inorder t).take (MAX_CHATS - acc.length)
  | .nil, acc => by simp [collect_inorder, inorder]
  | .node ck ct cts l r, acc => by
    by_cases h : MAX_CHATS ≤ acc.length
    · rw [collect_full _ _ h]
      have h0 : MAX_CHATS - acc.length = 0 := Nat.sub_eq_zero_of_le h
      simp [h0]
    · have hlt : acc.length < MAX_CHATS := not_le.mp h
      simp only [collect_inorder, if_neg h]
      rw [collect_go l acc]
      by_cases h2 : (acc ++ (inorder l).take (MAX_CHATS - acc.length)).length < MAX_CHATS
      · rw [if_pos h2, collect_go r]
        have hlen : (acc ++ (inorder l).take (MAX_CHATS - acc.length)).length =
            acc.length + min (MAX_CHATS - acc.length) (inorder l).length := by
          simp [List.length_append, List.length_take]
        have hIL : (inorder l).length < MAX_CHATS - acc.length := by
          rw [hlen] at h2
          omega
        have htake : (inorder l).take (MAX_CHATS - acc.length) = inorder l :=
          List.take_of_length_le (le_of_lt hIL)
        rw [htake]
        have harith : MAX_CHATS -
            (acc ++ inorder l ++ [(ck, ct, cts)]).length =
            MAX_CHATS - acc.length - (inorder l).length - 1 := by
          simp [List.length_append]
          omega
        rw [harith]
        have hsplit : (inorder l ++ (ck, ct, cts) :: inorder r).take
            (MAX_CHATS - acc.length) =
            inorder l ++ ((ck, ct, cts) :: inorder r).take
              (MAX_CHATS - acc.length - (inorder l).length) := by
          rw [List.take_append_eq_append_take, htake]
        have hsucc : MAX_CHATS - acc.length - (inorder l).length =
            (MAX_CHATS - acc.length - (inorder l).length - 1) + 1 := by
          omega
        rw [inorder, hsplit, hsucc, List.take_succ_cons]
        simp
      · rw [if_neg h2]
        rw [collect_full _ _ (not_lt.mp h2)]
        have hlen : (acc ++ (inorder l).take (MAX_CHATS - acc.length)).length =
            acc.length + min (MAX_CHATS - acc.length) (inorder l).length := by
          simp [List.length_append, List.length_take]
        have hIL : MAX_CHATS - acc.length ≤ (inorder l).length := by
          rw [hlen] at h2
          omega
        have hsplit : (inorder l ++ (ck, ct, cts) :: inorder r).take
            (MAX_CHATS - acc.length) =
            (inorder l).take (MAX_CHATS - acc.length) ++
              ((ck, ct, cts) :: inorder r).take
                (MAX_CHATS - acc.length - (inorder l).length) := by
          rw [List.take_append_eq_append_take]
        have h0 : MAX_CHATS - acc.length - (inorder l).length = 0 := by
          omega
        rw [inorder, hsplit, h0]
        simp

/-- `collect_inorder` into the empty buffer returns the first
`MAX_CHATS` entries of the in-order sequence. -/
theorem collect_inorder_take (t : CTree) :
    collect_inorder t [] = (inorder t).take MAX_CHATS := by
  rw [collect_go t []]
  simp

/-! ### JSON escape / unescape -/

/-- Fuelled round-trip: unescaping the escape of a backslash-free title
segment (followed by the closing quote that `save_to_file` prints, and
anything after it) returns the title with carriage returns dropped,
provided the escape buffer cursor never reaches its bound and the
unescape capacity suffices. -/
theorem unescape_escape :
    ∀ (t : List Char) (j cap : Nat) (rest : List Char),
      (∀ c ∈ t, c ≠ '\\') →
      j + 2 * t.length ≤ MAX_TITLE_LEN * 2 - 2 →
      (t.filter (· != '\r')).length ≤ cap →
      unescapeGo cap (jsonEscapeGo (MAX_TITLE_LEN * 2) t j ++ '"' :: rest) =
        t.filter (· != '\r')
  | [], j, cap, rest, _, _, _ => by
    cases cap with
    | zero => simp [jsonEscapeGo, unescapeGo]
    | succ m =>
      cases rest with
      | nil => simp [jsonEscapeGo, unescapeGo]
      | cons x xs => simp [jsonEscapeGo, unescapeGo]
  | c :: t2, j, cap, rest, hnb, hlen, hcap => by
    have hnb2 : ∀ x ∈ t2, x ≠ '\\' := fun x hx => hnb x (List.mem_cons_of_mem _ hx)
    have hnbc : c ≠ '\\' := hnb c (List.mem_cons_self _ _)
    simp only [List.length_cons, MAX_TITLE_LEN] at hlen
    have hj : j < MAX_TITLE_LEN * 2 - 2 := by
      simp only [MAX_TITLE_LEN]
      omega
    by_cases hq : c = '"'
    · subst hq
      have hesc : jsonEscapeGo (MAX_TITLE_LEN * 2) ('"' :: t2) j =
          '\\' :: '"' :: jsonEscapeGo (MAX_TITLE_LEN * 2) t2 (j + 2) := by
        simp [jsonEscapeGo, if_pos hj]
      have hfil : (('"' : Char) :: t2).filter (· != '\r') =
          '"' :: t2.filter (· != '\r') := by
        rw [List.filter_cons_of_pos]
        rfl
      rw [hfil] at hcap ⊢
      cases cap with
      | zero => simp at hcap
      | succ m =>
        rw [hesc, List.cons_append, List.cons_append, unescapeGo,
          if_pos ⟨rfl, rfl⟩]
        rw [unescape_escape t2 (j + 2) m rest hnb2
          (by simp only [MAX_TITLE_LEN]; omega) (by simpa using hcap)]
    · by_cases hn : c = '\n'
      · subst hn
        have hesc : jsonEscapeGo (MAX_TITLE_LEN * 2) ('\n' :: t2) j =
            '\\' :: 'n' :: jsonEscapeGo (MAX_TITLE_LEN * 2) t2 (j + 2) := by
          simp [jsonEscapeGo, if_pos hj]
        have hfil : (('\n' : Char) :: t2).filter (· != '\r') =
            '\n' :: t2.filter (· != '\r') := by
          rw [List.filter_cons_of_pos]
          rfl
        rw [hfil] at hcap ⊢
        cases cap with
        | zero => simp at hcap
        | succ m =>
          rw [hesc, List.cons_append, List.cons_append, unescapeGo]
          rw [if_neg (by simp), if_pos ⟨rfl, rfl⟩]
          rw [unescape_escape t2 (j + 2) m rest hnb2
            (by simp only [MAX_TITLE_LEN]; omega) (by simpa using hcap)]
      · by_cases hr : c = '\r'
        · subst hr
          have hesc : jsonEscapeGo (MAX_TITLE_LEN * 2) ('\r' :: t2) j =
              jsonEscapeGo (MAX_TITLE_LEN * 2) t2 j := by
            simp [jsonEscapeGo, if_pos hj]
          have hfil : (('\r' : Char) :: t2).filter (· != '\r') =
              t2.filter (· != '\r') := by
            rw [List.filter_cons_of_neg]
            simp
          rw [hfil] at hcap ⊢
          rw [hesc]
          rw [unescape_escape t2 j cap rest hnb2
            (by simp only [MAX_TITLE_LEN]; omega) hcap]
        · have hesc : jsonEscapeGo (MAX_TITLE_LEN * 2) (c :: t2) j =
              c :: jsonEscapeGo (MAX_TITLE_LEN * 2) t2 (j + 1) := by
            simp [jsonEscapeGo, if_pos hj, hq, hn, hr, hnbc]
          have hfil : (c :: t2).filter (· != '\r') =
              c :: t2.filter (· != '\r') := by
            rw [List.filter_cons_of_pos]
            simp [hr]
          rw [hfil] at hcap ⊢
          cases cap with
          | zero => simp at hcap
          | succ m =>
            rw [hesc, List.cons_append]
            cases hX : jsonEscapeGo (MAX_TITLE_LEN * 2) t2 (j + 1) ++ '"' :: rest with
            | nil => exact absurd hX (by simp)
            | cons x xs =>
              rw [unescapeGo]
              rw [if_neg (fun h => hnbc h.1), if_neg (fun h => hnbc h.1), if_neg hq]
              rw [← hX]
              rw [unescape_escape t2 (j + 1) m rest hnb2
                (by simp only [MAX_TITLE_LEN]; omega) (by simpa using hcap)]

/-! ### Concrete inputs used by witnesses and counterexamples -/

/-- A 64-character key: one character beyond what `create_node` stores. -/
def key64 : String := ⟨List.replicate 64 'a'⟩

/-- The 63-character prefix that `strncpy` actually stores for `key64`. -/
def key63 : String := ⟨List.replicate 63 'a'⟩

/-- A second 64-character key agreeing with `key64` on its first 63
characters. -/
def key64b : String := ⟨List.replicate 63 'a' ++ ['b']⟩

def keyA : String := "a"

def keyB : String := "b"

def keyC : String := "c"

def titleT : String := "t"

def titleX : String := "X"

def titleY : String := "Y"

/-- A three-node tree with sorted keys `a < b < c` and a consistent size
counter. -/
def treeW : SplayTree :=
  { root := .node keyB titleT 2 (.node keyA titleT 1 .nil .nil)
      (.node keyC titleT 3 .nil .nil),
    size := 3 }

/-! ### Claims -/

/-- C9: Collect never fails on overfull trees: into an empty buffer,
`collect_inorder` returns exactly the first `MAX_CHATS` (100) entries of
the in-order sequence — silent truncation — and therefore every entry
whenever the tree holds at most `MAX_CHATS` nodes. -/
theorem C9_collect_truncates (t : CTree) :
    collect_inorder t [] = (inorder t).take MAX_CHATS ∧
      ((inorder t).length ≤ MAX_CHATS → collect_inorder t [] = inorder t) := by
  refine ⟨collect_inorder_take t, fun h => ?_⟩
  rw [collect_inorder_take t]
  exact List.take_of_length_le h

/-- C9 witness: the truncation law evaluated on a concrete tree that
fits the buffer. -/
theorem C9_witness :
    collect_inorder treeW.root [] = (inorder treeW.root).take MAX_CHATS ∧
      collect_inorder treeW.root [] = inorder treeW.root :=
  ⟨(C9_collect_truncates treeW.root).1,
   (C9_collect_truncates treeW.root).2 (by decide)⟩

/-- C8 counterexample: a title consisting of a single backslash does not
round-trip.  `json_escape` writes it as two backslashes; the loader
copies the first as a plain character and then reads the second together
with the closing quote as an escaped quote, so the parsed title is
backslash-quote, not backslash. -/
theorem C8_counterexample :
    unescapeGo (MAX_TITLE_LEN - 1) (json_escape ['\\'] ++ '"' :: []) ≠
      List.filter (· != '\r') ['\\'] := by decide

/-- C8 (amended): for titles with no backslash characters, of at most
`MAX_TITLE_LEN - 1` characters (the width the tree can store anyway),
the save-side escape composed with the load-side unescape reproduces the
title exactly except that carriage returns are dropped — whatever
follows the closing quote in the file.  Titles containing a backslash
are mis-parsed, as the counterexample shows. -/
theorem C8_escape_unescape (t rest : List Char)
    (hlen : t.length ≤ MAX_TITLE_LEN - 1)
    (hnb : ∀ c ∈ t, c ≠ '\\') :
    unescapeGo (MAX_TITLE_LEN - 1) (json_escape t ++ '"' :: rest) =
      t.filter (· != '\r') := by
  unfold json_escape
  apply unescape_escape t 0 (MAX_TITLE_LEN - 1) rest hnb
  · simp only [MAX_TITLE_LEN] at hlen ⊢
    omega
  · exact le_trans (List.length_filter_le _ _) hlen

/-- C8 witness: a title exercising the quote, newline and
carriage-return cases round-trips with the carriage return dropped. -/
theorem C8_witness :
    unescapeGo (MAX_TITLE_LEN - 1)
      (json_escape ['a', '"', '\n', '\r', 'b'] ++ '"' :: []) =
      List.filter (· != '\r') ['a', '"', '\n', '\r', 'b'] :=
  C8_escape_unescape ['a', '"', '\n', '\r', 'b'] [] (by decide) (by decide)

/-- C3 counterexample: inserting a 64-character key into the empty tree
stores only its first 63 characters, so the root key differs from the
inserted key. -/
theorem C3_counterexample :
    rootKey ((insert_chat emptyTree key64 titleT 1).root) ≠ some key64 := by decide

/-- C3 (amended): for keys below the `MAX_ID_LEN` truncation width, on a
tree with sorted keys and a consistent size counter: after Insert the
root key equals the inserted key, and the size is unchanged if the key
was present and grows by exactly one if it was absent. -/
theorem C3_insert_root_size (t : SplayTree) (id title : String) (ts : Int)
    (hid : id.data.length ≤ MAX_ID_LEN - 1)
    (hs : List.Pairwise KLt (keys t.root))
    (hsz : t.size = ((inorder t.root).length : Int)) :
    rootKey (insert_chat t id title ts).root = some id ∧
      (id ∈ keys t.root → (insert_chat t id title ts).size = t.size) ∧
      (id ∉ keys t.root → (insert_chat t id title ts).size = t.size + 1) := by
  have hid2 : strTake (MAX_ID_LEN - 1) id = id := strTake_of_le hid
  refine ⟨insert_rootKey t id title ts hid2, fun hmem => ?_, fun hmem => ?_⟩
  · rw [insert_size t id title ts hsz]
    have hf := find_complete t.root id hs hmem
    rw [if_pos hf]
  · rw [insert_size t id title ts hsz]
    cases hf : find_node t.root id with
    | none => simp
    | some e =>
      obtain ⟨h1, h2⟩ := find_some_mem t.root id e hf
      exact absurd (h2 ▸ List.mem_map_of_mem Prod.fst h1) hmem

/-- C3 witness: inserting a fresh short key into the concrete tree puts
it at the root and grows the size by one. -/
theorem C3_witness :
    rootKey (insert_chat treeW keyA titleX 9).root = some keyA ∧
      (insert_chat treeW keyA titleX 9).size = treeW.size :=
  ⟨(C3_insert_root_size treeW keyA titleX 9 (by decide) (by decide) (by decide)).1,
   (C3_insert_root_size treeW keyA titleX 9 (by decide) (by decide)
     (by decide)).2.1 (by decide)⟩

/-- C6 counterexample: with a 64-character key the second insert does
not update in place — the stored key is the 63-character truncation, the
comparison uses the full key, so a second node is created and the size
changes. -/
theorem C6_counterexample :
    (insert_chat (insert_chat emptyTree key64 titleX 1) key64 titleY 2).size ≠
      (insert_chat emptyTree key64 titleX 1).size := by decide

/-- C6 (amended): for keys below the truncation width and replacement
titles below the title width, inserting the same key twice leaves the
size unchanged relative to the first insert, and the node with that key
then carries the second title and timestamp (last write wins). -/
theorem C6_insert_last_write_wins (t : SplayTree) (k ti1 ti2 : String)
    (ts1 ts2 : Int)
    (hk : k.data.length ≤ MAX_ID_LEN - 1)
    (hti : ti2.data.length ≤ MAX_TITLE_LEN - 1) :
    (insert_chat (insert_chat t k ti1 ts1) k ti2 ts2).size =
      (insert_chat t k ti1 ts1).size ∧
      find_node (insert_chat (insert_chat t k ti1 ts1) k ti2 ts2).root k =
        some (k, ti2, ts2) := by
  have hk2 : strTake (MAX_ID_LEN - 1) k = k := strTake_of_le hk
  have hti2 : strTake (MAX_TITLE_LEN - 1) ti2 = ti2 := strTake_of_le hti
  have hroot := insert_rootKey t k ti1 ts1 hk2
  generalize hgen : insert_chat t k ti1 ts1 = t1 at hroot ⊢
  cases h1 : t1.root with
  | nil =>
    rw [h1] at hroot
    simp [rootKey] at hroot
  | node ck ct cts l r =>
    rw [h1] at hroot
    simp only [rootKey, Option.some.injEq] at hroot
    subst hroot
    simp only [insert_chat, h1, insertGo, scmp_refl]
    constructor
    · simp
    · simp [splayLoop, find_node, scmp_refl, hti2]

/-- C6 witness: the update-in-place law evaluated on a concrete
double insert. -/
theorem C6_witness :
    (insert_chat (insert_chat treeW keyA titleX 5) keyA titleY 6).size =
      (insert_chat treeW keyA titleX 5).size ∧
      find_node (insert_chat (insert_chat treeW keyA titleX 5) keyA titleY 6).root
        keyA = some (keyA, titleY, 6) :=
  C6_insert_last_write_wins treeW keyA titleX titleY 5 6 (by decide) (by decide)

/-- C10 counterexample: two different keys agreeing on their first 63
characters, inserted from the empty tree, do not address one node: the
insert comparison uses the full input key against the truncated stored
key, so a second node is created and the tree ends with two nodes
bearing the identical stored key. -/
theorem C10_counterexample :
    keys (buildTree [Op.ins key64 titleT 1, Op.ins key64b titleT 1]).root =
      [key63, key63] := by decide

/-- C10 (amended): the truncation half of the claim holds — every stored
key is at most 63 characters and every stored title at most 255
characters, in every tree the program can build.  The "same node" half
is refuted by the counterexample: the descent compares the untruncated
input key, so equal 63-character prefixes do not imply an in-place
update. -/
theorem C10_truncation_bounds (ops : List Op) :
    ∀ e ∈ inorder (buildTree ops).root,
      e.1.data.length ≤ MAX_ID_LEN - 1 ∧ e.2.1.data.length ≤ MAX_TITLE_LEN - 1 :=
  buildTree_bounded ops

/-- C10 witness: the stored entry for an over-long inserted key obeys
the bounds. -/
theorem C10_witness :
    key63.data.length ≤ MAX_ID_LEN - 1 ∧ titleT.data.length ≤ MAX_TITLE_LEN - 1 :=
  C10_truncation_bounds [Op.ins key64 titleT 1] (key63, titleT, 1) (by decide)

/-- C1 counterexample: two keys that agree on their first 63 characters
(inserted from the empty tree) yield two nodes with the same stored key,
so the collected key sequence has a duplicate and is not strictly
ascending. -/
theorem C1_counterexample :
    ¬ List.Pairwise KLt
      ((collect_inorder (buildTree [Op.ins key64 titleT 1, Op.ins key64b titleT 1]).root
        []).map Prod.fst) := by decide

/-- C1 (amended): for every sequence of Insert/Delete operations from
the empty tree whose inserted keys are below the `MAX_ID_LEN` truncation
width, the in-order Collect lists keys in strictly ascending
lexicographic (`strcmp`) order with no duplicates. -/
theorem C1_collect_sorted (ops : List Op) (h : ∀ op ∈ ops, OpShortKey op) :
    List.Pairwise KLt ((collect_inorder (buildTree ops).root []).map Prod.fst) ∧
      ((collect_inorder (buildTree ops).root []).map Prod.fst).Nodup := by
  have hs := buildTree_sorted ops h
  have hc : (collect_inorder (buildTree ops).root []).map Prod.fst =
      (keys (buildTree ops).root).take MAX_CHATS := by
    rw [collect_inorder_take]
    simp [keys, List.map_take]
  rw [hc]
  have hp : List.Pairwise KLt ((keys (buildTree ops).root).take MAX_CHATS) :=
    hs.sublist (List.take_sublist _ _)
  exact ⟨hp, hp.imp fun hab => KLt_ne hab⟩

/-- C1 witness: a concrete Insert/Insert/Insert/Delete history yields a
sorted duplicate-free collected key sequence. -/
theorem C1_witness :
    List.Pairwise KLt
      ((collect_inorder (buildTree [Op.ins keyB titleT 1, Op.ins keyA titleT 1,
        Op.ins keyC titleT 1, Op.del keyB]).root []).map Prod.fst) ∧
      ((collect_inorder (buildTree [Op.ins keyB titleT 1, Op.ins keyA titleT 1,
        Op.ins keyC titleT 1, Op.del keyB]).root []).map Prod.fst).Nodup :=
  C1_collect_sorted [Op.ins keyB titleT 1, Op.ins keyA titleT 1,
    Op.ins keyC titleT 1, Op.del keyB] (by decide)

/-- C2: on any tree whose in-order keys are strictly sorted (the BST
invariant): if `k` is present, Access returns the entry holding `k` —
an entry of the original tree — and leaves the tree rooted at a node
with key `k`, at unchanged size; if `k` is absent, Access returns
`none` and the tree is unchanged. -/
theorem C2_access_splay_to_root (t : SplayTree) (k : String)
    (hs : List.Pairwise KLt (keys t.root)) :
    (k ∈ keys t.root →
      ∃ ti ts l r, (access_chat t k).1.root = .node k ti ts l r ∧
        (access_chat t k).2 = some (k, ti, ts) ∧
        (k, ti, ts) ∈ inorder t.root ∧
        (access_chat t k).1.size = t.size) ∧
    (k ∉ keys t.root → access_chat t k = (t, none)) := by
  constructor
  · intro hmem
    have hfs := find_complete t.root k hs hmem
    cases hq : splayFind k t.root .root with
    | none =>
      rw [splayFind_none_iff] at hq
      rw [hq] at hfs
      simp at hfs
    | some res =>
      obtain ⟨ti, ts, L, R, rfl, h2, h3⟩ := splayFind_spec t.root .root k res hq
      refine ⟨ti, ts, L, R, ?_, ?_, h3, ?_⟩
      · simp [access_chat, hq]
      · simp [access_chat, hq, rootEntry]
      · simp [access_chat, hq]
  · intro hmem
    have hfn : find_node t.root k = none := by
      cases hf : find_node t.root k with
      | none => rfl
      | some e =>
        obtain ⟨h1, h2⟩ := find_some_mem t.root k e hf
        exact absurd (h2 ▸ List.mem_map_of_mem Prod.fst h1) hmem
    have hsf : splayFind k t.root .root = none :=
      (splayFind_none_iff t.root .root k).mpr hfn
    simp [access_chat, hsf]

/-- C2 witness: accessing the present key `a` in the concrete tree. -/
theorem C2_witness :
    ∃ ti ts l r, (access_chat treeW keyA).1.root = .node keyA ti ts l r ∧
      (access_chat treeW keyA).2 = some (keyA, ti, ts) ∧
      (keyA, ti, ts) ∈ inorder treeW.root ∧
      (access_chat treeW keyA).1.size = treeW.size :=
  (C2_access_splay_to_root treeW keyA (by decide)).1 (by decide)

/-- C4: on any tree whose in-order keys are strictly sorted (the BST
invariant): deleting a present key returns `true`, decreases the size
by exactly one, and a subsequent `find_node` for that key returns
`none`; deleting an absent key returns `false` and leaves the tree and
its size unchanged. -/
theorem C4_delete_correct (t : SplayTree) (k : String)
    (hs : List.Pairwise KLt (keys t.root)) :
    (k ∈ keys t.root →
      (delete_chat t k).2 = true ∧ (delete_chat t k).1.size = t.size - 1 ∧
        find_node (delete_chat t k).1.root k = none) ∧
    (k ∉ keys t.root → delete_chat t k = (t, false)) := by
  constructor
  · intro hmem
    have hfs := find_complete t.root k hs hmem
    cases hq : splayFind k t.root .root with
    | none =>
      rw [splayFind_none_iff] at hq
      rw [hq] at hfs
      simp at hfs
    | some res =>
      obtain ⟨ti, ts, L, R, rfl, _, _⟩ := splayFind_spec t.root .root k res hq
      obtain ⟨hb1, hb2, hio⟩ := delete_found t k ti ts L R hq
      refine ⟨hb1, hb2, ?_⟩
      have hko := splayFind_root_decomp t k ti ts L R hq
      have hkeys : keys t.root =
          (inorder L).map Prod.fst ++ k :: (inorder R).map Prod.fst := by
        simp [keys, hko]
      rw [hkeys, List.pairwise_append] at hs
      obtain ⟨hsL, hsR, hcross⟩ := hs
      cases hfa : find_node (delete_chat t k).1.root k with
      | none => rfl
      | some e =>
        obtain ⟨h1, h2⟩ := find_some_mem _ k e hfa
        rw [hio] at h1
        rcases List.mem_append.mp h1 with h | h
        · have hkk : KLt e.1 k := hcross e.1 (List.mem_map_of_mem Prod.fst h) k
            (List.mem_cons_self _ _)
          rw [h2] at hkk
          exact absurd hkk (KLt_irrefl k)
        · have hkk : KLt k e.1 :=
            (List.pairwise_cons.mp hsR).1 e.1 (List.mem_map_of_mem Prod.fst h)
          rw [h2] at hkk
          exact absurd hkk (KLt_irrefl k)
  · intro hmem
    have hfn : find_node t.root k = none := by
      cases hf : find_node t.root k with
      | none => rfl
      | some e =>
        obtain ⟨h1, h2⟩ := find_some_mem t.root k e hf
        exact absurd (h2 ▸ List.mem_map_of_mem Prod.fst h1) hmem
    exact delete_notfound t k ((splayFind_none_iff t.root .root k).mpr hfn)

/-- C4 witness: deleting the present key `b` and the absent key `t` in
the concrete tree. -/
theorem C4_witness :
    ((delete_chat treeW keyB).2 = true ∧
      (delete_chat treeW keyB).1.size = treeW.size - 1 ∧
      find_node (delete_chat treeW keyB).1.root keyB = none) ∧
    delete_chat treeW titleT = (treeW, false) :=
  ⟨(C4_delete_correct treeW keyB (by decide)).1 (by decide),
   (C4_delete_correct treeW titleT (by decide)).2 (by decide)⟩

/-- C5: whenever `find`-and-splay for `k` produces a root with two
non-empty subtrees `L` and `R` (the two-child delete case), the splayed
maximum node `M` of `L` has key equal to the last in-order key of `L` —
the in-order predecessor of `k`, since the tree reads
`keys L ++ k :: keys R` — `M` has no right child at that moment, and
the final tree is rooted at `M` with `R` attached as its right child. -/
theorem C5_delete_both_children (t : SplayTree) (k k2 ti : String) (ts : Int)
    (L R : CTree)
    (hf : splayFind k t.root .root = some (.node k2 ti ts L R))
    (hL : L ≠ .nil) (hR : R ≠ .nil) :
    k2 = k ∧
    ∃ mk mt mts ml,
      splayMax L .root = .node mk mt mts ml .nil ∧
      (delete_chat t k).1.root = .node mk mt mts ml R ∧
      (keys L).getLast? = some mk ∧
      keys t.root = keys L ++ k2 :: keys R := by
  obtain ⟨ti2, ts2, L2, R2, heq, _, _⟩ := splayFind_spec t.root .root k _ hf
  injection heq with e1 e2 e3 e4 e5
  subst e1
  refine ⟨rfl, ?_⟩
  obtain ⟨mk, mt, mts, ml, hsm, hlast⟩ := splayMax_spec L .root trivial hL
  refine ⟨mk, mt, mts, ml, hsm, ?_, hlast, ?_⟩
  · simp only [delete_chat, hf]
    cases L with
    | nil => exact absurd rfl hL
    | node lk la lb ll lr =>
      cases R with
      | nil => exact absurd rfl hR
      | node rk ra rb rl rr =>
        simp [hsm]
  · have hdec := splayFind_root_decomp t k2 ti ts L R hf
    simp [keys, hdec]

/-- C5 witness: deleting the two-child root `b` of the concrete tree
splays `a` (the predecessor) to the top of the left subtree and attaches
the right subtree to it. -/
theorem C5_witness :
    keyB = keyB ∧
    ∃ mk mt mts ml,
      splayMax (CTree.node keyA titleT 1 .nil .nil) .root =
        .node mk mt mts ml .nil ∧
      (delete_chat treeW keyB).1.root =
        .node mk mt mts ml (.node keyC titleT 3 .nil .nil) ∧
      (keys (CTree.node keyA titleT 1 .nil .nil)).getLast? = some mk ∧
      keys treeW.root = keys (CTree.node keyA titleT 1 .nil .nil) ++
        keyB :: keys (CTree.node keyC titleT 3 .nil .nil) :=
  C5_delete_both_children treeW keyB keyB titleT 2
    (CTree.node keyA titleT 1 .nil .nil) (CTree.node keyC titleT 3 .nil .nil)
    (by decide) (by decide) (by decide)

end SplayC
